import Mathlib

/-!
Shallow embedding of the repository slice consisting of
`src/transformers/models/openai/convert_openai_weights_to_hf.py`,
`src/transformers/models/openai/modeling_openai.py` and
`src/transformers/models/qwen2_moe/modular_qwen2_moe.py`, together with
theorems settling the specification claims about it.

The conversion script manipulates parameter names with `re.sub` / `re.search`
(`import regex as re`) over a small pattern language: literal characters,
the `.` metacharacter (any character except a newline), a `(\d+)` capturing
group, and a single-character alternation group such as `(k|v|q)`.
Replacement templates are literal text plus group references `\1`, `\2`.
We embed exactly that fragment.  As in CPython `re` (and the drop-in
compatible `regex` module), the replacement template is parsed and its group
references are validated against the pattern before any matching happens, so
a reference to a nonexistent group raises even when the pattern never
matches the text.
-/

namespace Spec2Proof

/-- Tokens of the regex fragment used by the conversion script. `dot` is the
`.` metacharacter (any character except newline), `digits` is a `(\d+)`
capturing group, `alts` is an alternation capturing group of literal
alternatives such as `(k|v|q)`. -/
inductive RTok where
  | lit : Char → RTok
  | dot : RTok
  | digits : RTok
  | alts : List (List Char) → RTok

/-- `startsList w s` is true when `w` is an initial run of `s`. -/
def startsList : List Char → List Char → Bool
  | [], _ => true
  | _ :: _, [] => false
  | a :: as, b :: bs => a = b && startsList as bs

mutual

/-- Match a token list at the start of the input, returning the remaining
input and the list of captured groups in order.  `(\d+)` is greedy with
backtracking (longest digit run first), alternatives are tried left to
right, exactly as a backtracking regex engine does.  The fuel argument only
bounds the recursion depth so that the function is structurally recursive
and evaluates inside the kernel; `matchFuel` below always provides enough. -/
def matchToksF : Nat → List RTok → List Char → Option (List Char × List (List Char))
  | 0, _, _ => none
  | _ + 1, [], s => some (s, [])
  | _ + 1, RTok.lit _ :: _, [] => none
  | fuel + 1, RTok.lit c :: ts, x :: s => if x = c then matchToksF fuel ts s else none
  | _ + 1, RTok.dot :: _, [] => none
  | fuel + 1, RTok.dot :: ts, x :: s => if x = '\n' then none else matchToksF fuel ts s
  | fuel + 1, RTok.digits :: ts, s => tryDigits fuel ts s (s.takeWhile Char.isDigit).length
  | fuel + 1, RTok.alts as :: ts, s => tryAlts fuel ts s as

/-- Backtracking for `(\d+)`: try to continue after consuming `n` digits,
then `n - 1`, ..., down to `1`. -/
def tryDigits : Nat → List RTok → List Char → Nat → Option (List Char × List (List Char))
  | 0, _, _, _ => none
  | _ + 1, _, _, 0 => none
  | fuel + 1, ts, s, n + 1 =>
    match matchToksF fuel ts (s.drop (n + 1)) with
    | some (r, caps) => some (r, s.take (n + 1) :: caps)
    | none => tryDigits fuel ts s n

/-- Try the alternatives of an alternation group from left to right. -/
def tryAlts : Nat → List RTok → List Char → List (List Char) → Option (List Char × List (List Char))
  | 0, _, _, _ => none
  | _ + 1, _, _, [] => none
  | fuel + 1, ts, s, a :: as =>
    if startsList a s then
      match matchToksF fuel ts (s.drop a.length) with
      | some (r, caps) => some (r, a :: caps)
      | none => tryAlts fuel ts s as
    else tryAlts fuel ts s as

end

/-- Total number of alternatives in the alternation groups of a pattern. -/
def altTotal : List RTok → Nat
  | [] => 0
  | RTok.alts as :: ts => as.length + altTotal ts
  | _ :: ts => altTotal ts

/-- A recursion-depth bound amply sufficient for `matchToksF`: each token is
visited once along any call path, trying at most `s.length + 1` digit runs
or as many alternatives as the group has. -/
def matchFuel (toks : List RTok) (s : List Char) : Nat :=
  (toks.length + 1) * (s.length + altTotal toks + 2)

/-- Match a token list at the start of the input (fuel instantiated). -/
def matchToks (toks : List RTok) (s : List Char) :
    Option (List Char × List (List Char)) :=
  matchToksF (matchFuel toks s) toks s

/-- Is there a match of the pattern starting at some position of `s`?
(Semantics of `re.search` returning a truthy value.) -/
def searchFrom (toks : List RTok) : List Char → Bool
  | [] => (matchToks toks []).isSome
  | c :: rest => (matchToks toks (c :: rest)).isSome || searchFrom toks rest

/-- `re.search(pattern, s) is not None`. -/
def reSearch (toks : List RTok) (s : String) : Bool :=
  searchFrom toks s.data

/-- Items of a replacement template: literal text or a group reference. -/
inductive TItem where
  | str : List Char → TItem
  | grp : Nat → TItem

/-- Number of capturing groups of a pattern. -/
def groupCount : List RTok → Nat
  | [] => 0
  | RTok.digits :: ts => groupCount ts + 1
  | RTok.alts _ :: ts => groupCount ts + 1
  | _ :: ts => groupCount ts

/-- Template validation performed by `re`/`regex` when compiling a
replacement: every group reference must name an existing group. -/
def tmplValid (toks : List RTok) (tmpl : List TItem) : Bool :=
  tmpl.all fun it =>
    match it with
    | TItem.str _ => true
    | TItem.grp n => decide (1 ≤ n) && decide (n ≤ groupCount toks)

/-- Expand a replacement template against the captures of a match. -/
def expandTmpl (tmpl : List TItem) (caps : List (List Char)) : List Char :=
  tmpl.foldr
    (fun it acc =>
      (match it with
       | TItem.str cs => cs
       | TItem.grp n => caps.getD (n - 1) []) ++ acc)
    []

/-- One left-to-right scan of `re.sub`: at each position try the pattern; on
a match emit the expanded template and continue after the match, otherwise
emit the character and advance.  The fuel argument is the length of the
input, which suffices since every match of the script patterns consumes at
least one character. -/
def subAllAux (toks : List RTok) (tmpl : List TItem) : Nat → List Char → List Char
  | 0, s => s
  | fuel + 1, s =>
    match matchToks toks s with
    | some (r, caps) =>
      if r.length < s.length then expandTmpl tmpl caps ++ subAllAux toks tmpl fuel r
      else s
    | none =>
      match s with
      | [] => []
      | c :: rest => c :: subAllAux toks tmpl fuel rest

/-- The text-rewriting part of `re.sub` (template already validated). -/
def pySubChars (toks : List RTok) (tmpl : List TItem) (s : List Char) : List Char :=
  subAllAux toks tmpl s.length s

/-- `re.sub(pattern, template, text)` on strings, for the always-valid
constant templates used inside `write_model`. -/
def pySubStr (toks : List RTok) (tmpl : List TItem) (s : String) : String :=
  String.mk (pySubChars toks tmpl s.data)

/-- `re.sub(pattern, template, text)` with the eager template validation of
`re`/`regex`: an invalid group reference raises before any matching. -/
def reSubE (toks : List RTok) (tmpl : List TItem) (s : List Char) :
    Except String (List Char) :=
  if tmplValid toks tmpl then Except.ok (pySubChars toks tmpl s)
  else Except.error "invalid group reference"

/-- Compile a pattern string in which every character is a literal except
`.`, which is the any-character metacharacter — exactly the shape of the
literal runs in `ORIGINAL_TO_CONVERTED_KEY_MAPPING`. -/
def pStr (s : String) : List RTok :=
  s.data.map fun c => if c = '.' then RTok.dot else RTok.lit c

/-- A literal replacement-template item. -/
def tStr (s : String) : TItem :=
  TItem.str s.data

/-- `ORIGINAL_TO_CONVERTED_KEY_MAPPING` from the conversion script, in
order.  A `none` replacement is the `None` entry (the script then calls
`re.sub(pattern, "", text)`).  Note the sixth rule replaces with
`layers.\1.self_attn.\2_proj` although its pattern has a single group. -/
def RULES : List (List RTok × Option (List TItem)) :=
  [ (pStr "norm.weight", some [tStr "norm.weight"]),
    (pStr "unembedding.weight", some [tStr "lm_head.weight"]),
    (pStr "embedding", some [tStr "embed_tokens"]),
    (pStr "rope.freqs", none),
    (pStr "block." ++ [RTok.digits] ++ pStr ".attn.qkv",
      some [tStr "layers.", TItem.grp 1, tStr ".self_attn.(k|v|q)_proj"]),
    (pStr "block." ++ [RTok.digits] ++ pStr ".attn.out",
      some [tStr "layers.", TItem.grp 1, tStr ".self_attn.", TItem.grp 2, tStr "_proj"]),
    (pStr "block." ++ [RTok.digits] ++ pStr ".attn.sinks",
      some [tStr "layers.", TItem.grp 1, tStr ".self_attn.sinks"]),
    (pStr "block." ++ [RTok.digits] ++ pStr ".attn.norm",
      some [tStr "layers.", TItem.grp 1, tStr ".input_layernorm.weight"]),
    (pStr "block." ++ [RTok.digits] ++ pStr ".mlp.mlp1_weight",
      some [tStr "layers.", TItem.grp 1, tStr ".mlp.gate_up_proj.weight"]),
    (pStr "block." ++ [RTok.digits] ++ pStr ".mlp.mlp1_bias",
      some [tStr "layers.", TItem.grp 1, tStr ".mlp.gate_up_proj.bias"]),
    (pStr "block." ++ [RTok.digits] ++ pStr ".mlp.mlp2_weight",
      some [tStr "layers.", TItem.grp 1, tStr ".mlp.down_proj.weight"]),
    (pStr "block." ++ [RTok.digits] ++ pStr ".mlp.mlp2_bias",
      some [tStr "layers.", TItem.grp 1, tStr ".mlp.down_proj.bias"]),
    (pStr "block." ++ [RTok.digits] ++ pStr ".mlp.norm",
      some [tStr "layers.", TItem.grp 1, tStr ".post_attention_layernorm.weight"]),
    (pStr "block." ++ [RTok.digits] ++ pStr ".mlp.gate",
      some [tStr "layers.", TItem.grp 1, tStr ".mlp.router.weight"]) ]

/-- `"\n".join(keys)` as a character list. -/
def joinNL (keys : List String) : List Char :=
  (String.intercalate "\n" keys).data

/-- `text.split("\n")`. -/
def splitNLAux : List Char → List Char → List String
  | acc, [] => [String.mk acc.reverse]
  | acc, c :: rest =>
    if c = '\n' then String.mk acc.reverse :: splitNLAux [] rest
    else splitNLAux (c :: acc) rest

/-- `text.split("\n")` on a character list. -/
def splitNL (cs : List Char) : List String :=
  splitNLAux [] cs

/-- `convert_old_keys_to_new_keys` from the conversion script: join the keys
with newlines, apply the rule substitutions in order over the whole text,
and zip the old lines with the new lines into a mapping.  The result is in
`Except` because `re.sub` raises on the rule whose replacement references a
nonexistent group. -/
def convert_old_keys_to_new_keys (state_dict_keys : Option (List String)) :
    Except String (List (String × String)) :=
  match state_dict_keys with
  | none => Except.ok []
  | some keys =>
    let oldText := joinNL keys
    (RULES.foldlM (fun txt rule => reSubE rule.1 (rule.2.getD []) txt) oldText).map
      fun newText => (splitNL oldText).zip (splitNL newText)

/-- Python `dict.get(key, default)` over the association list produced by
`dict(zip(...))`, where a later binding of the same key overrides an
earlier one. -/
def pyGet (m : List (String × String)) (key : String) : String :=
  m.foldl (fun acc p => if p.1 = key then p.2 else acc) key

/-- `needle in haystack` for Python strings (substring test). -/
def containsFrom (needle : List Char) : List Char → Bool
  | [] => startsList needle []
  | c :: rest => startsList needle (c :: rest) || containsFrom needle rest

/-- Python substring test `needle in s`. -/
def containsSub (s : String) (needle : String) : Bool :=
  containsFrom needle.data s.data

/-- A tensor, flattened to its leading dimensions times its last axis: each
inner list is one slice along the last axis. -/
abbrev Tensor := List (List ℚ)

/-- Size of the last axis. -/
def lastSize (t : Tensor) : Nat :=
  (t.headD []).length

/-- Ceiling division. -/
def ceilDiv (a b : Nat) : Nat :=
  (a + b - 1) / b

/-- `torch.Tensor.chunk(n, dim=-1)`: split the last axis into chunks of
size `⌈s / n⌉`; the last chunk is smaller when `n` does not divide `s`, and
fewer than `n` chunks are returned when the sizes work out that way (torch
documentation). -/
def torchChunk (n : Nat) (t : Tensor) : List Tensor :=
  let s := lastSize t
  let c := ceilDiv s n
  (List.range (ceilDiv s c)).map fun i => t.map fun row => (row.drop (c * i)).take c

/-- `q, k, v = tensor.chunk(3, dim=-1)` — `none` models the `ValueError`
raised when unpacking fewer than three chunks. -/
def splitQKV (t : Tensor) : Option (Tensor × Tensor × Tensor) :=
  match torchChunk 3 t with
  | [q, k, v] => some (q, k, v)
  | _ => none

/-- Python dict assignment `d[k] = v`: overwrite in place if present,
append otherwise. -/
def dictSet {T : Type} (sd : List (String × T)) (k : String) (v : T) :
    List (String × T) :=
  if sd.any (fun p => p.1 = k) then sd.map (fun p => if p.1 = k then (k, v) else p)
  else sd ++ [(k, v)]

/-- The pattern `(k|v|q)_proj.weight` used by `write_model` both to detect a
fused projection name and to derive the q/k/v sub-names. -/
def qkvSearchPat : List RTok :=
  [RTok.alts [['k'], ['v'], ['q']]] ++ pStr "_proj.weight"

/-- The state-dict construction loop of `write_model` (lines 111–124),
parameterized by the `new_keys` mapping and the loaded tensors: for each key
take its remapped name (defaulting to itself); if the remapped name matches
`(k|v|q)_proj.weight` and contains `language_model`, chunk the tensor into
three along the last axis and bind the chunks under the q/k/v sub-names (in
the order q, k, v); otherwise bind the tensor under the remapped name. -/
def buildStateDict (new_keys : List (String × String))
    (loaded : List (String × Tensor)) : Except String (List (String × Tensor)) :=
  loaded.foldlM
    (fun sd kv =>
      let new_key := pyGet new_keys kv.1
      if reSearch qkvSearchPat new_key && containsSub new_key "language_model" then
        match splitQKV kv.2 with
        | some (q, k, v) =>
          let q_key := pySubStr qkvSearchPat [tStr "q_proj.weight"] new_key
          let k_key := pySubStr qkvSearchPat [tStr "k_proj.weight"] new_key
          let v_key := pySubStr qkvSearchPat [tStr "v_proj.weight"] new_key
          Except.ok (dictSet (dictSet (dictSet sd q_key q) k_key k) v_key v)
        | none => Except.error "ValueError: not enough values to unpack"
      else Except.ok (dictSet sd new_key kv.2))
    []

/-- Right-aligned element-wise broadcasting of two shapes (torch/numpy
rule: compare trailing dimensions; they must be equal or one of them `1`),
on reversed shapes. -/
def bcastRev : List Nat → List Nat → Option (List Nat)
  | [], ys => some ys
  | xs, [] => some xs
  | x :: xs, y :: ys =>
    (if x = y then some x else if x = 1 then some y else if y = 1 then some x else none).bind
      fun d => (bcastRev xs ys).map fun rest => d :: rest

/-- Broadcast two shapes for an element-wise binary operation. -/
def broadcastShapes (a b : List Nat) : Option (List Nat) :=
  (bcastRev a.reverse b.reverse).map List.reverse

/-- `tensor.reshape(target)`: succeeds exactly when the element counts
agree. -/
def reshapeShape (s target : List Nat) : Option (List Nat) :=
  if s.prod = target.prod then some target else none

/-- Shape semantics of `Qwen2MoeSparseMoeBlock.forward` on an input of shape
`[B, S, H]`, following the source line by line:
`hidden_states.view(-1, H)` gives `[B*S, H]`; the experts module returns a
tensor of the same shape as its (flattened) input, which line 136 reshapes
to `[B, S, H]`; the shared-expert branch stays flat:
`sigmoid(shared_expert_gate(h))` is `[B*S, 1]` and multiplies `shared_expert(h)`
of shape `[B*S, H]`; line 141 adds the reshaped routed tensor and the flat
shared tensor element-wise (with broadcasting); line 142 reshapes the sum to
`[B, S, H]` again. -/
def qwenBlockOutShape (B S H : Nat) : Option (List Nat) :=
  (reshapeShape [B * S, H] [B, S, H]).bind fun routed =>
    (broadcastShapes [B * S, 1] [B * S, H]).bind fun sharedOut =>
      (broadcastShapes routed sharedOut).bind fun added =>
        reshapeShape added [B, S, H]

/-- Shape semantics of `OpenaiMLP.forward`: the input is flattened by
`hidden_states.reshape(-1, hidden_dim)` (requires `H` to divide the element
count) and the returned `out` tensor keeps that flattened two-dimensional
shape — the method never restores the input shape. -/
def openaiMLPOutShape (inShape : List Nat) (H : Nat) : Option (List Nat) :=
  if H ≠ 0 ∧ inShape.prod % H = 0 then some [inShape.prod / H, H] else none

/-- Python `dict.get(key)` returning the last binding of `key`. -/
def pyGetT {T : Type} (sd : List (String × T)) (k : String) : Option T :=
  sd.foldl (fun acc p => if p.1 = k then some p.2 else acc) none

/-- Modelled from the spec: `model.load_state_dict(state_dict, strict=True,
assign=True)` — the strict-loading contract of the external tensor library
(which is not part of this repository): tensors are bound to parameters by
exact name match, and a parameter name of the target model absent from the
state dict, or a state-dict key absent from the model, is a fatal strict
load error. -/
def load_state_dict (modelKeys : List String) (sd : List (String × Tensor)) :
    Except String (List (String × Tensor)) :=
  if (∀ k ∈ modelKeys, ∃ p ∈ sd, p.1 = k) ∧ (∀ p ∈ sd, p.1 ∈ modelKeys) then
    Except.ok (modelKeys.map fun k => (k, (pyGetT sd k).getD []))
  else Except.error "strict load failed: missing or unexpected keys"

section MoE

variable {m : ℕ}

/-- The comparison used to model `torch.topk`: higher score first and, among
equal scores, lower index first (the tie order of `topk` is
implementation-defined; this is the stable choice documented in the spec). -/
def topRel (v : Fin m → ℝ) (i j : Fin m) : Prop :=
  v j < v i ∨ (v i = v j ∧ i ≤ j)

noncomputable instance topRelDecidable (v : Fin m → ℝ) : DecidableRel (topRel v) := fun _ _ =>
  inferInstanceAs (Decidable (_ ∨ _))

instance topRelTotal (v : Fin m → ℝ) : IsTotal (Fin m) (topRel v) := by
  constructor
  intro i j
  rcases lt_trichotomy (v i) (v j) with h | h | h
  · exact Or.inr (Or.inl h)
  · rcases le_total i j with hij | hij
    · exact Or.inl (Or.inr ⟨h, hij⟩)
    · exact Or.inr (Or.inr ⟨h.symm, hij⟩)
  · exact Or.inl (Or.inl h)

instance topRelTrans (v : Fin m → ℝ) : IsTrans (Fin m) (topRel v) := by
  constructor
  rintro a b c (hab | ⟨hab, hab'⟩) (hbc | ⟨hbc, hbc'⟩)
  · exact Or.inl (hbc.trans hab)
  · exact Or.inl (hbc ▸ hab)
  · exact Or.inl (hab ▸ hbc)
  · exact Or.inr ⟨hab.trans hbc, hab'.trans hbc'⟩

/-- `torch.topk(v, k).indices` as a list of expert indices, best first. -/
noncomputable def topkSel (k : ℕ) (v : Fin m → ℝ) : List (Fin m) :=
  ((List.finRange m).insertionSort (topRel v)).take k

/-- `F.softmax(v, dim=-1)`. -/
noncomputable def softmax (v : Fin m → ℝ) : Fin m → ℝ := fun i =>
  Real.exp (v i) / ∑ j, Real.exp (v j)

/-- `torch.sigmoid`. -/
noncomputable def sigmoid (x : ℝ) : ℝ :=
  1 / (1 + Real.exp (-x))

/-- `torch.sigmoid` extended to `±∞` as IEEE floats do: `sigmoid(-inf) = 0`
and `sigmoid(inf) = 1`. -/
noncomputable def sigmoidE (x : EReal) : ℝ :=
  if x = ⊥ then 0 else if x = ⊤ then 1 else sigmoid x.toReal

/-- `Qwen2MoeNaiveMoe.forward`, per input vector, selection step: softmax
over the full per-expert score vector first, then `topk`. -/
noncomputable def qwenSel (k : ℕ) (logits : Fin m → ℝ) : List (Fin m) :=
  topkSel k (softmax logits)

/-- The values paired with `qwenSel` by `torch.topk`: the softmaxed scores
at the selected indices. -/
noncomputable def qwenTopVals (k : ℕ) (logits : Fin m → ℝ) : List ℝ :=
  (qwenSel k logits).map (softmax logits)

/-- The routing weights of `Qwen2MoeNaiveMoe.forward`: the top-k softmax
values, renormalized to unit sum when `norm_topk_prob` is set. -/
noncomputable def qwenWeights (norm : Bool) (k : ℕ) (logits : Fin m → ℝ) : List ℝ :=
  if norm then (qwenTopVals k logits).map fun w => w / (qwenTopVals k logits).sum
  else qwenTopVals k logits

/-- `OpenaiMLP.forward` selection step: `topk` on the raw router logits. -/
noncomputable def openaiSel (k : ℕ) (logits : Fin m → ℝ) : List (Fin m) :=
  topkSel k logits

/-- The router scores of `OpenaiMLP.forward`: the logits are scattered into
a tensor prefilled with `-inf` (non-selected experts keep `-inf`), then
`sigmoid` is applied to every entry. -/
noncomputable def openaiScores (k : ℕ) (logits : Fin m → ℝ) : Fin m → ℝ := fun e =>
  sigmoidE (if e ∈ openaiSel k logits then (logits e : EReal) else (⊥ : EReal))

variable {V : Type} [AddCommGroup V] [Module ℝ V]

/-- The routed (expert-mixture) part of the Qwen2Moe block output for one
input vector: the dispatch loop of `Qwen2MoeNaiveMoe.forward` accumulates,
into each token's output slot, `weight • expert(h)` for every selected
expert of that token. -/
noncomputable def qwenRouted (norm : Bool) (k : ℕ) (gate : V → Fin m → ℝ)
    (experts : Fin m → V → V) (h : V) : V :=
  (((qwenSel k (gate h)).zip (qwenWeights norm k (gate h))).map fun p =>
    p.2 • experts p.1 h).sum

/-- `Qwen2MoeSparseMoeBlock.forward` for one input vector: the routed
expert mixture plus the shared-expert output gated by
`F.sigmoid(self.shared_expert_gate(hidden_states))`. -/
noncomputable def qwenVectorOut (norm : Bool) (k : ℕ) (gate : V → Fin m → ℝ)
    (experts : Fin m → V → V) (shared : V → V) (sharedGate : V → ℝ) (h : V) : V :=
  (((qwenSel k (gate h)).zip (qwenWeights norm k (gate h))).map fun p =>
    p.2 • experts p.1 h).sum + sigmoid (sharedGate h) • shared h

/-- The routed part of `OpenaiMLP.forward` for one input vector: the input
is replicated per expert, scaled by that expert's router score
(`routed_in = routed_in * router_scores`), passed through the expert, and
the per-expert results are summed (`routed_out.reshape(...).sum(dim=0)`). -/
noncomputable def openaiRouted (k : ℕ) (router : V → Fin m → ℝ)
    (experts : Fin m → V → V) (h : V) : V :=
  ∑ e : Fin m, experts e (openaiScores k (router h) e • h)

/-- `OpenaiMLP.forward` for one input vector:
`out = self.shared_expert(hidden_states); out.add_(routed_out...sum(dim=0))`.
The `shared` argument models the `self.shared_expert` attribute, which the
forward method references but `OpenaiMLP.__init__` never defines. -/
noncomputable def openaiVectorOut (k : ℕ) (router : V → Fin m → ℝ)
    (experts : Fin m → V → V) (shared : V → V) (h : V) : V :=
  shared h + ∑ e : Fin m, experts e (openaiScores k (router h) e • h)

/-- The property asserted by the specification sentence behind claim C5,
stated in the spec's own words: the block output adds to the routed part a
shared-expert contribution gated by a learned sigmoid scalar. -/
def specSharedGated (out routedPart sharedPart : ℝ) : Prop :=
  ∃ g : ℝ, out = routedPart + sigmoid g * sharedPart

end MoE

/-! ## Theorems settling the claims -/

/-- C10: calling `convert_old_keys_to_new_keys` with its argument omitted or
`None` returns an empty mapping and does not raise. -/
theorem convert_none_returns_empty :
    convert_old_keys_to_new_keys none = Except.ok [] := rfl

/-- C7: the name `foo.bar` matches none of the remapping rules, yet the
remapper does not map it to itself — `convert_old_keys_to_new_keys` raises
the regex error `invalid group reference`, because the replacement of the
rule `block.(\d+).attn.out` references group 2 while its pattern has a
single capturing group (the template is validated before matching, so every
non-`None` call fails; at the latest it fails once a key matches that
rule, as `block.0.attn.out` here does). -/
theorem unmatched_name_conversion_raises :
    (∀ rule ∈ RULES, reSearch rule.1 "foo.bar" = false) ∧
    convert_old_keys_to_new_keys (some ["foo.bar", "block.0.attn.out"]) =
      Except.error "invalid group reference" :=
  ⟨by decide, by rfl⟩

/-- C6: the `rope.freqs` rule (replacement `None`) does not remove the name
from the output mapping: the substitution turns the line into the empty
string, the zip therefore maps `"rope.freqs"` to `""`, and the `write_model`
loop then binds the tensor under the empty-string key — a key derived from
the dropped name — instead of skipping it. -/
theorem null_rule_keeps_key_and_binds_empty :
    ((RULES.take 4).foldlM (fun txt rule => reSubE rule.1 (rule.2.getD []) txt)
        "rope.freqs".data = Except.ok []) ∧
    ((splitNL "rope.freqs".data).zip (splitNL []) = [("rope.freqs", "")]) ∧
    (buildStateDict [("rope.freqs", "")] [("rope.freqs", [[7]])] =
      Except.ok [("", [[7]])]) :=
  ⟨by rfl, by rfl, by rfl⟩

/-- C1: a fused QKV tensor is never split.  The first five rules remap the
checkpoint key `block.0.attn.qkv.weight` to
`layers.0.self_attn.(k|v|q)_proj.weight`; that name neither matches the
split-detection pattern `(k|v|q)_proj.weight` (the characters before
`_proj` are `q)`) nor contains `language_model`, so the `write_model` loop
takes the else-branch and binds the fused tensor (here of last-axis size
`6 = 3·2`) whole under the unresolved name — no q/k/v chunks are produced. -/
theorem fused_qkv_tensor_never_split :
    ((RULES.take 5).foldlM (fun txt rule => reSubE rule.1 (rule.2.getD []) txt)
        "block.0.attn.qkv.weight".data
        = Except.ok "layers.0.self_attn.(k|v|q)_proj.weight".data) ∧
    (reSearch qkvSearchPat "layers.0.self_attn.(k|v|q)_proj.weight" = false) ∧
    (containsSub "layers.0.self_attn.(k|v|q)_proj.weight" "language_model" = false) ∧
    (buildStateDict
        [("block.0.attn.qkv.weight", "layers.0.self_attn.(k|v|q)_proj.weight")]
        [("block.0.attn.qkv.weight", [[1, 2, 3, 4, 5, 6]])] =
      Except.ok [("layers.0.self_attn.(k|v|q)_proj.weight", [[1, 2, 3, 4, 5, 6]])]) :=
  ⟨by rfl, by rfl, by rfl, by rfl⟩

/-- C4: the MoE block does not preserve the input shape for every batch
size.  For an input of shape `[2, 1, 4]` the Qwen2Moe block fails (the
routed tensor is reshaped to `[2, 1, 4]` on line 136 while the shared
expert output stays `[2, 4]`; broadcasting yields `[2, 2, 4]`, whose 16
elements cannot be reshaped to `[2, 1, 4]` on line 142), while for batch
size 1 it succeeds; and `OpenaiMLP.forward` returns a flattened `[6, 4]`
tensor for an input of shape `[2, 3, 4]`. -/
theorem moe_block_shape_not_preserved :
    qwenBlockOutShape 2 1 4 = none ∧
    qwenBlockOutShape 1 3 4 = some [1, 3, 4] ∧
    openaiMLPOutShape [2, 3, 4] 4 = some [6, 4] ∧
    openaiMLPOutShape [2, 3, 4] 4 ≠ some [2, 3, 4] := by
  refine ⟨by rfl, by rfl, by rfl, by decide⟩

/-- Helper: `pyGetT` finds a value exactly when some pair carries the key. -/
theorem pyGetT_foldl_isSome {T : Type} (sd : List (String × T)) (k : String)
    (acc : Option T) :
    (sd.foldl (fun acc p => if p.1 = k then some p.2 else acc) acc).isSome = true ↔
      (∃ p ∈ sd, p.1 = k) ∨ acc.isSome = true := by
  induction sd generalizing acc with
  | nil => simp
  | cons hd tl ih =>
    by_cases hhd : hd.1 = k
    · simp [List.foldl_cons, hhd, ih]
    · simp only [List.foldl_cons, if_neg hhd, ih, List.mem_cons]
      constructor
      · rintro (⟨p, hp, hpk⟩ | hacc)
        · exact Or.inl ⟨p, Or.inr hp, hpk⟩
        · exact Or.inr hacc
      · rintro (⟨p, hp | hp, hpk⟩ | hacc)
        · exact absurd (hp ▸ hpk) hhd
        · exact Or.inl ⟨p, hp, hpk⟩
        · exact Or.inr hacc

/-- C9: `write_model` loads with `strict=True`: binding is by exact name
match, and whenever some target-model parameter name is absent from the
remapped state dict, or some state-dict key is absent from the model, the
load is a fatal strict-load error; when the key sets agree, every model
parameter is bound to the state-dict tensor stored under exactly its own
name. -/
theorem strict_load_exact_name_match (modelKeys : List String)
    (sd : List (String × Tensor)) :
    (¬ ((∀ k ∈ modelKeys, ∃ p ∈ sd, p.1 = k) ∧ (∀ p ∈ sd, p.1 ∈ modelKeys)) →
      load_state_dict modelKeys sd =
        Except.error "strict load failed: missing or unexpected keys") ∧
    (∀ out, load_state_dict modelKeys sd = Except.ok out →
      ∀ k ∈ modelKeys, ∃ t, (k, t) ∈ out ∧ pyGetT sd k = some t) := by
  constructor
  · intro h
    simp only [load_state_dict, if_neg h]
  · intro out hout k hk
    by_cases hcond : (∀ k ∈ modelKeys, ∃ p ∈ sd, p.1 = k) ∧ (∀ p ∈ sd, p.1 ∈ modelKeys)
    · have hsome : (pyGetT sd k).isSome = true := by
        rw [pyGetT, pyGetT_foldl_isSome]
        exact Or.inl (hcond.1 k hk)
      obtain ⟨t, ht⟩ := Option.isSome_iff_exists.mp hsome
      refine ⟨t, ?_, ht⟩
      have : out = modelKeys.map fun k => (k, (pyGetT sd k).getD []) := by
        rw [load_state_dict, if_pos hcond] at hout
        exact (Except.ok.injEq _ _).mp hout.symm
      rw [this]
      have : (k, t) = (fun k => (k, (pyGetT sd k).getD [])) k := by
        simp [ht]
      rw [this]
      exact List.mem_map_of_mem _ hk
    · rw [load_state_dict, if_neg hcond] at hout
      exact absurd hout (by simp)

/-- Witness for C9 at a concrete mismatch: the model has parameter `a` but
the state dict only binds `b`, so the strict load errors. -/
theorem strict_load_exact_name_match_witness :
    (¬ ((∀ k ∈ ["a"], ∃ p ∈ ([("b", [[1]])] : List (String × Tensor)), p.1 = k) ∧
        (∀ p ∈ ([("b", [[1]])] : List (String × Tensor)), p.1 ∈ ["a"]))) ∧
    load_state_dict ["a"] [("b", [[1]])] =
      Except.error "strict load failed: missing or unexpected keys" :=
  ⟨by decide, (strict_load_exact_name_match ["a"] [("b", [[1]])]).1 (by decide)⟩

/-- The `sigmoid` function is strictly positive. -/
theorem sigmoid_pos (x : ℝ) : 0 < sigmoid x := by
  unfold sigmoid
  positivity

/-- The `sigmoid` function is strictly below `1`. -/
theorem sigmoid_lt_one (x : ℝ) : sigmoid x < 1 := by
  unfold sigmoid
  rw [div_lt_one (by positivity)]
  linarith [Real.exp_pos (-x)]

/-- Dividing every entry of a list divides its sum. -/
theorem list_sum_map_div (l : List ℝ) (S : ℝ) :
    (l.map fun w => w / S).sum = l.sum / S := by
  induction l with
  | nil => simp
  | cons a t ih => simp [ih, add_div]

/-- Softmax values are strictly positive. -/
theorem softmax_pos {m : ℕ} (hm : 0 < m) (logits : Fin m → ℝ) (i : Fin m) :
    0 < softmax logits i := by
  haveI : Nonempty (Fin m) := ⟨⟨0, hm⟩⟩
  exact div_pos (Real.exp_pos _)
    (Finset.sum_pos (fun j _ => Real.exp_pos _) Finset.univ_nonempty)

/-- `topkSel` selects k score-maximal indices: every selected index scores
at least as high as every non-selected one. -/
theorem topkSel_maximal {m : ℕ} (k : ℕ) (v : Fin m → ℝ) :
    ∀ i ∈ topkSel k v, ∀ j : Fin m, j ∉ topkSel k v → v j ≤ v i := by
  intro i hi j hj
  simp only [topkSel] at hi hj
  have hsorted : ((List.finRange m).insertionSort (topRel v)).Pairwise (topRel v) :=
    List.sorted_insertionSort (topRel v) (List.finRange m)
  have hjL : j ∈ (List.finRange m).insertionSort (topRel v) :=
    (List.perm_insertionSort (topRel v) (List.finRange m)).mem_iff.mpr
      (List.mem_finRange j)
  rw [← List.take_append_drop k ((List.finRange m).insertionSort (topRel v))] at hjL hsorted
  have hjdrop := (List.mem_append.mp hjL).resolve_left hj
  have hrel := (List.pairwise_append.mp hsorted).2.2 i hi j hjdrop
  rcases hrel with h | h
  · exact h.le
  · exact h.1.ge

/-- C2: order of score normalization in the two MoE variants.  In the
Qwen2Moe variant the per-expert scores are softmaxed over the full expert
axis first and `topk` then selects on (and returns) the softmaxed values:
every selected value is a softmax value with denominator ranging over all
experts, and the selection maximizes the softmaxed scores.  In the Openai
variant `topk` runs first on the raw logits, non-selected entries are set
to `-inf`, and `sigmoid` is applied independently to each entry, so a
selected expert's score is the sigmoid of its own raw logit (and a
non-selected expert's score is `sigmoid(-inf) = 0`). -/
theorem moe_score_normalization_order {m : ℕ} (k : ℕ) (logits : Fin m → ℝ) :
    (∀ i ∈ qwenSel k logits, ∀ j : Fin m, j ∉ qwenSel k logits →
      softmax logits j ≤ softmax logits i) ∧
    (qwenTopVals k logits = (qwenSel k logits).map fun i =>
      Real.exp (logits i) / ∑ j, Real.exp (logits j)) ∧
    (∀ e : Fin m, openaiScores k logits e =
      if e ∈ openaiSel k logits then sigmoid (logits e) else 0) := by
  refine ⟨topkSel_maximal k (softmax logits), rfl, ?_⟩
  intro e
  simp only [openaiScores]
  by_cases he : e ∈ openaiSel k logits
  · rw [if_pos he, if_pos he]
    simp only [sigmoidE, if_neg (EReal.coe_ne_bot _), if_neg (EReal.coe_ne_top _),
      EReal.toReal_coe]
  · rw [if_neg he, if_neg he]
    simp [sigmoidE]

/-- C3: the selected routing weights of the Qwen2Moe variant are
non-negative, and when `norm_topk_prob` is enabled they sum to exactly 1;
the Openai variant's router scores are non-negative as well. -/
theorem moe_selected_weights_nonneg_sum_one {m : ℕ} (k : ℕ) (norm : Bool)
    (h1 : 1 ≤ k) (hk : k ≤ m) (logits : Fin m → ℝ) :
    (∀ w ∈ qwenWeights norm k logits, 0 ≤ w) ∧
    (norm = true → (qwenWeights norm k logits).sum = 1) ∧
    (∀ e : Fin m, 0 ≤ openaiScores k logits e) := by
  have hm : 0 < m := lt_of_lt_of_le h1 hk
  have hpos : ∀ w ∈ qwenTopVals k logits, 0 < w := by
    intro w hw
    simp only [qwenTopVals, List.mem_map] at hw
    obtain ⟨i, _, rfl⟩ := hw
    exact softmax_pos hm logits i
  have hlen : (qwenTopVals k logits).length = k := by
    simp [qwenTopVals, qwenSel, topkSel, min_eq_left hk]
  have hne : qwenTopVals k logits ≠ [] := by
    intro h
    rw [h] at hlen
    simp at hlen
    omega
  have hsum : 0 < (qwenTopVals k logits).sum := List.sum_pos _ hpos hne
  refine ⟨?_, ?_, ?_⟩
  · intro w hw
    cases norm with
    | false =>
      simp only [qwenWeights, Bool.false_eq_true, if_false] at hw
      exact (hpos w hw).le
    | true =>
      simp only [qwenWeights, if_true, List.mem_map] at hw
      obtain ⟨u, hu, rfl⟩ := hw
      exact div_nonneg (hpos u hu).le hsum.le
  · intro hnorm
    subst hnorm
    simp only [qwenWeights, if_true]
    rw [list_sum_map_div, div_self hsum.ne']
  · intro e
    simp only [openaiScores, sigmoidE]
    split_ifs <;>
      first
        | exact le_refl 0
        | exact zero_le_one
        | exact (sigmoid_pos _).le

/-- Witness for C3 at `m = 1`, `k = 1`, zero logits, normalization on. -/
theorem moe_selected_weights_nonneg_sum_one_witness :
    (1 ≤ 1) ∧ (1 ≤ 1) ∧
    ((∀ w ∈ qwenWeights true 1 (fun _ : Fin 1 => (0 : ℝ)), 0 ≤ w) ∧
     (true = true → (qwenWeights true 1 (fun _ : Fin 1 => (0 : ℝ))).sum = 1) ∧
     (∀ e : Fin 1, 0 ≤ openaiScores 1 (fun _ : Fin 1 => (0 : ℝ)) e)) :=
  ⟨le_refl 1, le_refl 1,
    moe_selected_weights_nonneg_sum_one 1 true (le_refl 1) (le_refl 1) _⟩

/-- C5 counterexample: in the Openai variant the shared-expert contribution
is not gated by any sigmoid scalar.  At a concrete instance (one expert,
zero router and zero expert so the routed part is `0`, identity shared
expert, input `1`) the forward output is `routed + 1 · shared`, and no real
`g` satisfies `out = routed + sigmoid(g) · shared` since `sigmoid < 1`. -/
theorem openai_shared_ungated_counterexample :
    ¬ specSharedGated
      (openaiVectorOut (m := 1) (V := ℝ) 1 (fun _ _ => 0) (fun _ _ => 0) id 1)
      (openaiRouted (m := 1) (V := ℝ) 1 (fun _ _ => 0) (fun _ _ => 0) 1)
      (id (1 : ℝ)) := by
  rintro ⟨g, hg⟩
  have h1 : openaiVectorOut (m := 1) (V := ℝ) 1 (fun _ _ => 0) (fun _ _ => 0) id 1
      = 1 := by
    simp [openaiVectorOut]
  have h2 : openaiRouted (m := 1) (V := ℝ) 1 (fun _ _ => 0) (fun _ _ => 0) 1
      = 0 := by
    simp [openaiRouted]
  rw [h1, h2, id_eq] at hg
  have := sigmoid_lt_one g
  nlinarith

/-- C5 amended: both variants add a separately computed shared-expert
contribution to every vector's output, but only the Qwen2Moe variant gates
it by a learned per-vector sigmoid scalar
(`F.sigmoid(shared_expert_gate(h))`); the Openai variant adds the
shared-expert output ungated (`out = shared_expert(h); out.add_(routed)`),
its forward moreover referencing a `shared_expert` attribute that
`OpenaiMLP.__init__` never defines. -/
theorem moe_shared_gating_by_variant {m : ℕ} {V : Type} [AddCommGroup V]
    [Module ℝ V] (norm : Bool) (k : ℕ) (gate router : V → Fin m → ℝ)
    (experts : Fin m → V → V) (shared : V → V) (sharedGate : V → ℝ) (h : V) :
    qwenVectorOut norm k gate experts shared sharedGate h =
      qwenRouted norm k gate experts h + sigmoid (sharedGate h) • shared h ∧
    openaiVectorOut k router experts shared h =
      openaiRouted k router experts h + shared h := by
  constructor
  · rfl
  · simp only [openaiVectorOut, openaiRouted]
    exact add_comm _ _

/-- Helper: a three-way `zipWith (· ++ ·)` over three mapped copies of the
same list is the identity when, row by row, the three images concatenate
back to the row. -/
theorem zipWith3_append_maps {α : Type} (g0 g1 g2 : List α → List α)
    (t : List (List α)) (h : ∀ row ∈ t, (g0 row ++ g1 row) ++ g2 row = row) :
    List.zipWith (· ++ ·) (List.zipWith (· ++ ·) (t.map g0) (t.map g1)) (t.map g2)
      = t := by
  induction t with
  | nil => rfl
  | cons hd tl ih =>
    simp only [List.map_cons, List.zipWith_cons_cons]
    rw [h hd (List.mem_cons_self hd tl), ih fun r hr => h r (List.mem_cons_of_mem _ hr)]

/-- C8 counterexample: a fused tensor of last-axis size 5 (not divisible by
3) is split without any error into three chunks of sizes 2, 2, 1 — the
split produces output instead of raising. -/
theorem fused_split_size5_no_error :
    ¬ (3 ∣ lastSize ([[1, 2, 3, 4, 5]] : Tensor)) ∧
    splitQKV ([[1, 2, 3, 4, 5]] : Tensor) = some ([[1, 2]], [[3, 4]], [[5]]) :=
  ⟨by decide, by rfl⟩

/-- C8 amended: for a fused tensor whose last-axis size `s` is not
divisible by 3, `q, k, v = tensor.chunk(3, dim=-1)` raises only when
`chunk` returns fewer than three chunks, which happens exactly for
`s ∈ {1, 2, 4}`; for every other such `s` it silently produces three
contiguous chunks of sizes `⌈s/3⌉, ⌈s/3⌉, s - 2⌈s/3⌉` (the last strictly
smaller) whose concatenation along the last axis is the original tensor. -/
theorem fused_split_nondivisible (t : Tensor)
    (hrect : ∀ r ∈ t, r.length = lastSize t)
    (hnd : ¬ (3 ∣ lastSize t)) :
    (splitQKV t = none ↔ lastSize t = 1 ∨ lastSize t = 2 ∨ lastSize t = 4) ∧
    (∀ q k v, splitQKV t = some (q, k, v) →
      (∀ r ∈ q, r.length = ceilDiv (lastSize t) 3) ∧
      (∀ r ∈ k, r.length = ceilDiv (lastSize t) 3) ∧
      (∀ r ∈ v, r.length = lastSize t - 2 * ceilDiv (lastSize t) 3) ∧
      List.zipWith (· ++ ·) (List.zipWith (· ++ ·) q k) v = t) := by
  by_cases hsmall : lastSize t = 1 ∨ lastSize t = 2 ∨ lastSize t = 4
  · have hnone : splitQKV t = none := by
      rcases hsmall with hs | hs | hs <;>
        simp [splitQKV, torchChunk, hs, ceilDiv, List.range_succ]
    refine ⟨by simp [hnone, hsmall], ?_⟩
    intro q k v hq
    rw [hnone] at hq
    exact absurd hq (by simp)
  · push_neg at hsmall
    obtain ⟨hs1, hs2, hs4⟩ := hsmall
    have hmod : lastSize t % 3 = 1 ∨ lastSize t % 3 = 2 := by
      have hne : lastSize t % 3 ≠ 0 := fun h =>
        hnd (Nat.dvd_iff_mod_eq_zero.mpr h)
      omega
    set s := lastSize t with hsdef
    set a := s / 3 with hadef
    have hsplit3 : 3 * a + s % 3 = s := Nat.div_add_mod s 3
    have hc : ceilDiv s 3 = a + 1 := by
      unfold ceilDiv
      rcases hmod with h | h <;> omega
    set c := ceilDiv s 3 with hcdef
    have hca : c = a + 1 := hc
    have hbounds : c ≤ s ∧ c + c ≤ s ∧ s ≤ c + c + c := by
      rcases hmod with h | h <;>
        (constructor
         · omega
         · constructor <;> omega)
    have hn : ceilDiv s c = 3 := by
      unfold ceilDiv
      have h1 : s + c - 1 = s + a := by omega
      rw [h1, hca]
      refine Nat.div_eq_of_lt_le ?_ ?_
      · rcases hmod with h | h <;> omega
      · rcases hmod with h | h <;> omega
    have htc : torchChunk 3 t =
        [t.map fun row => (row.drop (c * 0)).take c,
         t.map fun row => (row.drop (c * 1)).take c,
         t.map fun row => (row.drop (c * 2)).take c] := by
      simp only [torchChunk, ← hsdef, ← hcdef, hn]
      rfl
    have hsome : splitQKV t =
        some (t.map fun row => (row.drop (c * 0)).take c,
              t.map fun row => (row.drop (c * 1)).take c,
              t.map fun row => (row.drop (c * 2)).take c) := by
      rw [splitQKV, htc]
    constructor
    · simp [hsome, hs1, hs2, hs4]
    · intro q k v hq
      rw [hsome] at hq
      obtain ⟨hq1, hq2, hq3⟩ : q = t.map (fun row => (row.drop (c * 0)).take c) ∧
          k = t.map (fun row => (row.drop (c * 1)).take c) ∧
          v = t.map (fun row => (row.drop (c * 2)).take c) := by
        have := (Option.some.injEq _ _).mp hq
        exact ⟨(congrArg Prod.fst this).symm,
               (congrArg (fun p => p.2.1) this).symm,
               (congrArg (fun p => p.2.2) this).symm⟩
      refine ⟨?_, ?_, ?_, ?_⟩
      · intro r hr
        rw [hq1] at hr
        obtain ⟨row, hrow, rfl⟩ := List.mem_map.mp hr
        simp only [List.length_take, List.length_drop, hrect row hrow, ← hsdef]
        omega
      · intro r hr
        rw [hq2] at hr
        obtain ⟨row, hrow, rfl⟩ := List.mem_map.mp hr
        simp only [List.length_take, List.length_drop, hrect row hrow, ← hsdef]
        omega
      · intro r hr
        rw [hq3] at hr
        obtain ⟨row, hrow, rfl⟩ := List.mem_map.mp hr
        simp only [List.length_take, List.length_drop, hrect row hrow, ← hsdef]
        omega
      · rw [hq1, hq2, hq3]
        refine zipWith3_append_maps _ _ _ t ?_
        intro row hrow
        have hlen : row.length = s := by rw [hrect row hrow]
        have hlast : (row.drop (c * 2)).take c = row.drop (c * 2) := by
          refine List.take_of_length_le ?_
          simp only [List.length_drop, hlen]
          omega
        have h2 : c * 2 = c + c := by ring
        rw [hlast, h2, ← List.drop_drop]
        rw [mul_zero, List.drop_zero, mul_one]
        rw [List.append_assoc, List.take_append_drop, List.take_append_drop]

/-- Witness for C8 at the concrete tensor `[[1, 2, 3, 4, 5]]`. -/
theorem fused_split_nondivisible_witness :
    (∀ r ∈ ([[1, 2, 3, 4, 5]] : Tensor), r.length = lastSize [[1, 2, 3, 4, 5]]) ∧
    (¬ (3 ∣ lastSize ([[1, 2, 3, 4, 5]] : Tensor))) ∧
    ((splitQKV ([[1, 2, 3, 4, 5]] : Tensor) = none ↔
        lastSize ([[1, 2, 3, 4, 5]] : Tensor) = 1 ∨
        lastSize ([[1, 2, 3, 4, 5]] : Tensor) = 2 ∨
        lastSize ([[1, 2, 3, 4, 5]] : Tensor) = 4) ∧
     (∀ q k v, splitQKV ([[1, 2, 3, 4, 5]] : Tensor) = some (q, k, v) →
       (∀ r ∈ q, r.length = ceilDiv (lastSize ([[1, 2, 3, 4, 5]] : Tensor)) 3) ∧
       (∀ r ∈ k, r.length = ceilDiv (lastSize ([[1, 2, 3, 4, 5]] : Tensor)) 3) ∧
       (∀ r ∈ v, r.length = lastSize ([[1, 2, 3, 4, 5]] : Tensor) -
          2 * ceilDiv (lastSize ([[1, 2, 3, 4, 5]] : Tensor)) 3) ∧
       List.zipWith (· ++ ·) (List.zipWith (· ++ ·) q k) v = [[1, 2, 3, 4, 5]])) :=
  ⟨by decide, by decide,
    fused_split_nondivisible [[1, 2, 3, 4, 5]] (by decide) (by decide)⟩

end Spec2Proof
